import Mathlib

/-!
Verification of the dedup-and-classification pipeline of `app.py`
(Senator-Moran-in-the-news).  Strings are modelled as `List Char`, over the
ASCII fragment of Python's semantics: Python's `\w` becomes ASCII
letters/digits/underscore, `\s` the six ASCII whitespace characters, and
`str.lower()` ASCII lower-casing.  A `None` field and an empty string are
indistinguishable after Python's `x or default`, so optional fields are
modelled as plain lists with `[]` playing the falsy role.
-/

namespace MoranNews

/-- Python's `\w` restricted to ASCII: letters, digits, and underscore. -/
def isWordChar (c : Char) : Bool := c.isAlphanum || c = '_'

/-- Python's `\s` restricted to ASCII: space, tab, newline, carriage return,
vertical tab, form feed. -/
def isPySpace (c : Char) : Bool :=
  c = ' ' || c = '\t' || c = '\n' || c = '\r' || c = '\x0b' || c = '\x0c'

/-- The character class kept by `clean_text`'s regex
`[^\w\s\-\.,:;!?()\'\"]+` (i.e. the complement of the deleted class). -/
def allowedChar (c : Char) : Bool :=
  isWordChar c || isPySpace c || c = '-' || c = '.' || c = ',' || c = ':' ||
    c = ';' || c = '!' || c = '?' || c = '(' || c = ')' || c = '\'' || c = '"'

/-- Remove the maximal trailing run of Python whitespace (the right half of
`str.strip()`). -/
def trimTrailing : List Char → List Char
  | [] => []
  | c :: rest =>
    if (trimTrailing rest).isEmpty && isPySpace c then []
    else c :: trimTrailing rest

/-- Python `str.strip()`: drop leading and trailing whitespace. -/
def pyStrip (l : List Char) : List Char := trimTrailing (l.dropWhile isPySpace)

/-- The function `clean_text` (app.py line 101):
`re.sub(r'[^\w\s\-\.,:;!?()\'\"]+', '', text or '').strip()`. -/
def clean_text (l : List Char) : List Char := pyStrip (l.filter allowedChar)

/-- Python `str.lower()` restricted to ASCII. -/
def pyLower (l : List Char) : List Char := l.map Char.toLower

/-- The tail of the marker regex `:?\s*`: one optional colon, then the
maximal whitespace run, both greedy. -/
def stripMarkerAfter (l : List Char) : List Char :=
  (match l with
   | ':' :: rest => rest
   | _ => l).dropWhile isPySpace

/-- The substitution `re.sub(r'^(breaking:?\s*|update:?\s*|exclusive:?\s*)', '', s)`:
anchored at the start of the string, so it fires at most once; alternation
order is irrelevant because the three markers begin with distinct letters. -/
def stripMarker (l : List Char) : List Char :=
  if "breaking".toList.isPrefixOf l then stripMarkerAfter (l.drop 8)
  else if "update".toList.isPrefixOf l then stripMarkerAfter (l.drop 6)
  else if "exclusive".toList.isPrefixOf l then stripMarkerAfter (l.drop 9)
  else l

/-- Auxiliary state machine for `re.sub(r'\s+', ' ', s)`: `prevSpace` records
whether we are inside a whitespace run already replaced by one space. -/
def collapseWsAux : Bool → List Char → List Char
  | _, [] => []
  | prevSpace, c :: rest =>
    if isPySpace c then
      if prevSpace then collapseWsAux true rest
      else ' ' :: collapseWsAux true rest
    else c :: collapseWsAux false rest

/-- Python `re.sub(r'\s+', ' ', s)`: each maximal whitespace run becomes one space. -/
def collapseWs (l : List Char) : List Char := collapseWsAux false l

/-- The function `normalize_title_for_duplicate_detection` (app.py lines 105-109):
lower-case, strip, remove one leading marker, collapse whitespace runs. -/
def normalize_title_for_duplicate_detection (title : List Char) : List Char :=
  collapseWs (stripMarker (pyStrip (pyLower title)))

/-- Python's `sub in s` substring containment. -/
def isSubstring (sub : List Char) : List Char → Bool
  | [] => sub.isEmpty
  | c :: rest => sub.isPrefixOf (c :: rest) || isSubstring sub rest

/-- Python `re.sub(rf" - ... $", "", title)` with the escaped outlet name
(app.py line 170): the
outlet name is escaped, hence matched literally; Python's `$` matches at the
end of the string or just before a single final newline, and the leftmost
match wins, so the before-final-newline position is tried first. -/
def stripOutletSuffix (title media : List Char) : List Char :=
  let suf := " - ".toList ++ media
  if (suf ++ ['\n']).isSuffixOf title then
    title.take (title.length - (suf.length + 1)) ++ ['\n']
  else if suf.isSuffixOf title then title.take (title.length - suf.length)
  else title

/-- A raw feed record as consumed by `process_entries_with_duplicates`:
`entry['title']`, `entry['link']`, `entry['source']['title']`.  `[]` models
both the empty string and Python `None` (they are equated by `x or d`). -/
structure RawEntry where
  title : List Char
  link : List Char
  media : List Char
deriving DecidableEq

/-- One element of a `title_groups` bucket (app.py lines 174-179). -/
structure Item where
  title : List Char
  media : List Char
  link : List Char
  entry : RawEntry
deriving DecidableEq

/-- One element of the `processed` output list (app.py lines 201-206). -/
structure MergedEntry where
  title : List Char
  media_string : List Char
  link : List Char
  is_kansas : Bool
deriving DecidableEq

/-- The constant `EXCLUDE_SOURCES_CONTAINS` (app.py line 43). -/
def EXCLUDE_SOURCES_CONTAINS : List (List Char) :=
  [".gov".toList, "Quiver Quantitative".toList, "MSN".toList,
   "Twin States News".toList]

/-- The constant `KANSAS_OUTLETS` (app.py lines 35-41), the default regional list. -/
def KANSAS_OUTLETS : List (List Char) :=
  ["Kansas Reflector".toList, "The Topeka Capital-Journal".toList,
   "The Wichita Eagle".toList, "KCLY Radio".toList, "KSN-TV".toList,
   "KWCH".toList, "Kansas City Star".toList, "Lawrence Journal-World".toList,
   "The Garden City Telegram".toList, "KSNT 27 News".toList,
   "The Hutchinson News".toList, "Salina Journal".toList,
   "Hays Daily News".toList, "Hays Post".toList, "Emporia Gazette".toList,
   "JC Post".toList, "WIBW".toList, "KRSL".toList,
   "Dodge City Daily Globe".toList, "DerbyInformer.com".toList,
   "KCTV".toList]

/-- The nested function `is_kansas_outlet` (app.py lines 161-162):
`any(k.strip() and k.strip().lower() == media.lower() for k in kansas_outlets)`.
Python's truthy `and` skips entries whose strip is the empty string. -/
def is_kansas_outlet (media : List Char) (kansas_outlets : List (List Char)) : Bool :=
  kansas_outlets.any fun k =>
    !(pyStrip k).isEmpty && pyLower (pyStrip k) == pyLower media

/-- Python `entry['source']['title'] or "Unknown"` (app.py line 166). -/
def resolveMedia (e : RawEntry) : List Char :=
  if e.media.isEmpty then "Unknown".toList else e.media

/-- Python `any(x in media for x in EXCLUDE_SOURCES_CONTAINS)` (app.py line 167). -/
def excludedB (e : RawEntry) : Bool :=
  EXCLUDE_SOURCES_CONTAINS.any fun x => isSubstring x (resolveMedia e)

/-- The `normalized` grouping key computed for one entry
(app.py lines 170-172). -/
def keyOf (e : RawEntry) : List Char :=
  normalize_title_for_duplicate_detection
    (clean_text (stripOutletSuffix e.title (resolveMedia e)))

/-- The record appended to a bucket (app.py lines 174-179). -/
def mkItem (e : RawEntry) : Item :=
  { title := clean_text (stripOutletSuffix e.title (resolveMedia e))
    media := clean_text (resolveMedia e)
    link := e.link
    entry := e }

/-- Python `title_groups.setdefault(normalized, []).append(...)` over an
insertion-ordered association list: append to the existing bucket of `key`,
or add a new bucket at the end. -/
def insertItem : List (List Char × List Item) → List Char → Item →
    List (List Char × List Item)
  | [], key, it => [(key, [it])]
  | (k, g) :: rest, key, it =>
    if k = key then (k, g ++ [it]) :: rest
    else (k, g) :: insertItem rest key it

/-- One iteration of the grouping loop (app.py lines 165-179). -/
def stepGroups (acc : List (List Char × List Item)) (entry : RawEntry) :
    List (List Char × List Item) :=
  if excludedB entry then acc
  else insertItem acc (keyOf entry) (mkItem entry)

/-- The `title_groups` dict after the grouping loop, as an
insertion-ordered association list (Python dicts preserve insertion order). -/
def buildGroups (all_entries : List RawEntry) : List (List Char × List Item) :=
  all_entries.foldl stepGroups []

/-- The nested function `format_outlet` (app.py lines 190-191). -/
def format_outlet (media : List Char) (kansas_outlets : List (List Char)) :
    List Char :=
  if is_kansas_outlet media kansas_outlets then '*' :: media else media

/-- Python `', '.join(xs)`. -/
def joinComma : List (List Char) → List Char
  | [] => []
  | [x] => x
  | x :: xs => x ++ ", ".toList ++ joinComma xs

/-- Python `xs[:-1]`: all but the last element. -/
def dropLastL : List (List Char) → List (List Char)
  | [] => []
  | [_] => []
  | x :: xs => x :: dropLastL xs

/-- Python `xs[-1]` on a non-empty list, written as last-of with default. -/
def lastD : List Char → List (List Char) → List Char
  | d, [] => d
  | _, y :: ys => lastD y ys

/-- The body of the assembly loop for one group (app.py lines 183-206):
primary is the first member, duplicates the rest; `none` models the
`if not group: continue` skip of an empty bucket. -/
def mergeGroup (group : List Item) (kansas_outlets : List (List Char)) :
    Option MergedEntry :=
  match group with
  | [] => none
  | primary :: duplicates =>
    let ms0 :=
      if is_kansas_outlet primary.media kansas_outlets then '*' :: primary.media
      else primary.media
    let media_string :=
      match duplicates.map fun d => format_outlet d.media kansas_outlets with
      | [] => ms0
      | [o] => ms0 ++ " (also ran in ".toList ++ o ++ [')']
      | o1 :: o2 :: os => ms0 ++ " (also ran in ".toList ++
          joinComma (dropLastL (o1 :: o2 :: os)) ++ " and ".toList ++
          lastD o1 (o2 :: os) ++ [')']
    some { title := primary.title
           media_string := media_string
           link := primary.link
           is_kansas := is_kansas_outlet primary.media kansas_outlets }

/-- The function `process_entries_with_duplicates` (app.py lines 157-207): group, then
assemble one merged entry per non-empty bucket, in bucket order. -/
def process_entries_with_duplicates (all_entries : List RawEntry)
    (kansas_outlets : List (List Char)) : List MergedEntry :=
  (buildGroups all_entries).filterMap fun kg => mergeGroup kg.2 kansas_outlets

/-! ## Spec-side definitions

These follow the specification's words, to be compared with the definitions
translated from the source. -/

/-- Modelled from the spec: the Oxford-style attribution join of §4.4 —
`", "` between all but the last pair and `" and "` before the last. -/
def specAlsoRanJoin : List (List Char) → List Char
  | [] => []
  | [x] => x
  | [x, y] => x ++ " and ".toList ++ y
  | x :: xs => x ++ ", ".toList ++ specAlsoRanJoin xs

/-! ## Claim theorems -/

/-- C1: For the three-article input (titles "Moran Wins Vote - KSN-TV",
"Moran Wins Vote", "Breaking: Moran Wins Vote"; outlets KSN-TV, MSN, WIBW),
with regional list [KSN-TV, WIBW], the pipeline returns exactly one merged
entry: title "Moran Wins Vote", link "https://a", mediaString
"*KSN-TV (also ran in *WIBW)", isRegional true.  The MSN article is dropped
by the exclusion list (`MSN ∈ EXCLUDE_SOURCES_CONTAINS`) and the other two
normalize to the common key "moran wins vote". -/
theorem C1_end_to_end :
    process_entries_with_duplicates
      [⟨"Moran Wins Vote - KSN-TV".toList, "https://a".toList, "KSN-TV".toList⟩,
       ⟨"Moran Wins Vote".toList, "https://b".toList, "MSN".toList⟩,
       ⟨"Breaking: Moran Wins Vote".toList, "https://c".toList, "WIBW".toList⟩]
      ["KSN-TV".toList, "WIBW".toList] =
    [⟨"Moran Wins Vote".toList, "*KSN-TV (also ran in *WIBW)".toList,
      "https://a".toList, true⟩] := by decide

lemma joinComma_lastD_eq (os : List (List Char)) :
    ∀ o1 o2 : List Char,
      joinComma (dropLastL (o1 :: o2 :: os)) ++ " and ".toList ++
        lastD o1 (o2 :: os) =
      specAlsoRanJoin (o1 :: o2 :: os) := by
  induction os with
  | nil => intro o1 o2; simp [dropLastL, joinComma, lastD, specAlsoRanJoin]
  | cons r rs ih =>
    intro o1 o2
    have h2 := ih o2 r
    simp only [dropLastL, joinComma, lastD, specAlsoRanJoin] at h2 ⊢
    simp only [List.append_assoc]
    rw [← h2]
    simp [List.append_assoc]

/-- C2: For every group with a non-empty duplicate list, the merged entry's
mediaString is the (possibly star-marked) primary outlet followed by
`" (also ran in <join>)"` where the join puts `", "` between all but the
last pair and `" and "` before the last, in duplicate first-seen order, and
each duplicate outlet is independently star-marked exactly when it is
regional. -/
theorem C2_attribution (primary : Item) (duplicates : List Item)
    (ks : List (List Char)) (h : duplicates ≠ []) :
    mergeGroup (primary :: duplicates) ks = some
      { title := primary.title
        media_string :=
          (if is_kansas_outlet primary.media ks then '*' :: primary.media
           else primary.media) ++
          " (also ran in ".toList ++
          specAlsoRanJoin (duplicates.map fun d =>
            if is_kansas_outlet d.media ks then '*' :: d.media else d.media) ++
          [')']
        link := primary.link
        is_kansas := is_kansas_outlet primary.media ks } := by
  match duplicates, h with
  | [d], _ =>
    simp [mergeGroup, format_outlet, specAlsoRanJoin]
  | d1 :: d2 :: ds, _ =>
    simp only [mergeGroup, format_outlet, List.map_cons]
    rw [← joinComma_lastD_eq]
    simp [List.append_assoc]

/-- Witness for C2 at a concrete three-duplicate group: the suffix is
`" (also ran in Outlet B, Outlet C and Outlet D)"`. -/
theorem C2_attribution_witness :
    mergeGroup
      [⟨"T".toList, "Outlet A".toList, "l".toList, ⟨[], [], []⟩⟩,
       ⟨"T".toList, "Outlet B".toList, "l".toList, ⟨[], [], []⟩⟩,
       ⟨"T".toList, "Outlet C".toList, "l".toList, ⟨[], [], []⟩⟩,
       ⟨"T".toList, "Outlet D".toList, "l".toList, ⟨[], [], []⟩⟩] [] = some
      ⟨"T".toList,
       "Outlet A (also ran in Outlet B, Outlet C and Outlet D)".toList,
       "l".toList, false⟩ := by
  rw [C2_attribution _ _ _ (by decide)]
  decide

/-- C3 counterexample: with outlet name `""` and regional list `[" "]`, the
whitespace-trimmed entry `""` equals the outlet name case-insensitively, yet
`is_kansas_outlet` returns `false` (Python's truthy `and` skips entries whose
strip is empty), so the claimed equivalence fails. -/
theorem C3_counterexample :
    ¬ (is_kansas_outlet [] [" ".toList] = true ↔
        ∃ k ∈ [" ".toList], pyLower (pyStrip k) = pyLower ([] : List Char)) := by
  decide

/-- C3 (amended): under Mode B, `is_kansas_outlet` returns true iff some
whitespace-trimmed entry of the regional list is NON-EMPTY and equals the
outlet name case-insensitively; consequently every merged entry of a
non-empty group carries `is_kansas = is_kansas_outlet primary.media` and its
mediaString starts with `'*'` prepended to the primary outlet exactly when
such a match exists. -/
theorem C3_amended_regional (media : List Char) (ks : List (List Char))
    (p : Item) (ds : List Item) :
    (is_kansas_outlet media ks = true ↔
      ∃ k ∈ ks, pyStrip k ≠ [] ∧ pyLower (pyStrip k) = pyLower media)
    ∧ ∃ m, mergeGroup (p :: ds) ks = some m
        ∧ m.is_kansas = is_kansas_outlet p.media ks
        ∧ ∃ rest, m.media_string =
            (if is_kansas_outlet p.media ks then '*' :: p.media else p.media)
              ++ rest := by
  constructor
  · simp [is_kansas_outlet, List.any_eq_true, Bool.and_eq_true,
      List.isEmpty_iff, and_assoc]
  · match ds with
    | [] => exact ⟨_, rfl, rfl, [], (List.append_nil _).symm⟩
    | [d] =>
      refine ⟨_, rfl, rfl,
        " (also ran in ".toList ++ format_outlet d.media ks ++ [')'], ?_⟩
      simp [List.append_assoc]
    | d1 :: d2 :: dtl =>
      refine ⟨_, rfl, rfl,
        " (also ran in ".toList ++
          joinComma (dropLastL (format_outlet d1.media ks ::
            format_outlet d2.media ks ::
            dtl.map fun d => format_outlet d.media ks)) ++
          " and ".toList ++
          lastD (format_outlet d1.media ks) (format_outlet d2.media ks ::
            dtl.map fun d => format_outlet d.media ks) ++ [')'], ?_⟩
      simp [List.append_assoc]

/-- Witness for C3 (amended): "ksn-tv" matches regional entry "KSN-TV "
(trimmed, case-insensitive). -/
theorem C3_amended_regional_witness :
    is_kansas_outlet "ksn-tv".toList ["KSN-TV ".toList] = true :=
  (C3_amended_regional "ksn-tv".toList ["KSN-TV ".toList]
      ⟨[], [], [], ⟨[], [], []⟩⟩ []).1.mpr
    ⟨"KSN-TV ".toList, by decide, by decide, by decide⟩

lemma mem_trimTrailing {c : Char} {l : List Char} (h : c ∈ trimTrailing l) :
    c ∈ l := by
  induction l with
  | nil => simp [trimTrailing] at h
  | cons a rest ih =>
    simp only [trimTrailing] at h
    split at h
    · exact absurd h (List.not_mem_nil c)
    · rcases List.mem_cons.mp h with h | h
      · exact h ▸ List.mem_cons_self a rest
      · exact List.mem_cons_of_mem a (ih h)

lemma trimTrailing_idem (l : List Char) :
    trimTrailing (trimTrailing l) = trimTrailing l := by
  induction l with
  | nil => rfl
  | cons c rest ih =>
    by_cases h : ((trimTrailing rest).isEmpty && isPySpace c) = true
    · simp [trimTrailing, h]
    · simp only [trimTrailing, if_neg h]
      simp [trimTrailing, ih, h]

lemma trimTrailing_cons_not_space {c : Char} (rest : List Char)
    (h : isPySpace c = false) :
    trimTrailing (c :: rest) = c :: trimTrailing rest := by
  simp [trimTrailing, h]

lemma dropWhile_cons_false {p : Char → Bool} :
    ∀ {l : List Char} {c : Char} {rest : List Char},
      l.dropWhile p = c :: rest → p c = false := by
  intro l
  induction l with
  | nil => intro c rest h; simp [List.dropWhile] at h
  | cons a as ih =>
    intro c rest h
    rw [List.dropWhile_cons] at h
    split at h
    · exact ih h
    · next hpa => cases h; simpa using hpa

lemma pyStrip_idem (l : List Char) : pyStrip (pyStrip l) = pyStrip l := by
  unfold pyStrip
  cases hd : l.dropWhile isPySpace with
  | nil => simp [trimTrailing, List.dropWhile]
  | cons c rest =>
    have hc : isPySpace c = false := dropWhile_cons_false hd
    rw [trimTrailing_cons_not_space rest hc]
    rw [List.dropWhile_cons_of_neg (by simp [hc])]
    rw [trimTrailing_cons_not_space _ hc, trimTrailing_idem]

lemma mem_pyStrip {c : Char} {l : List Char} (h : c ∈ pyStrip l) : c ∈ l :=
  List.dropWhile_subset isPySpace (mem_trimTrailing h)

/-- C6: `clean_text` is idempotent. -/
theorem C6_clean_text_idempotent (l : List Char) :
    clean_text (clean_text l) = clean_text l := by
  unfold clean_text
  rw [List.filter_eq_self.mpr, pyStrip_idem]
  intro a ha
  exact (List.mem_filter.mp (mem_pyStrip ha)).2

/-- Modelled from the spec: the character class of §4.1 `cleanDisplayText` —
alphanumeric, whitespace, or one of the punctuation set
`- . , : ; ! ? ( ) ' "` (no underscore). -/
def specAllowedChar (c : Char) : Bool :=
  c.isAlphanum || isPySpace c || c = '-' || c = '.' || c = ',' || c = ':' ||
    c = ';' || c = '!' || c = '?' || c = '(' || c = ')' || c = '\'' || c = '"'

/-- Modelled from the spec, amended: the spec's character class extended
with the underscore, which Python's `\w` also keeps. -/
def amendedAllowedChar (c : Char) : Bool :=
  c.isAlphanum || c = '_' || isPySpace c || c = '-' || c = '.' || c = ',' ||
    c = ':' || c = ';' || c = '!' || c = '?' || c = '(' || c = ')' ||
    c = '\'' || c = '"'

/-- C7 counterexample: `clean_text` keeps the underscore (Python's `\w`
includes it), although the underscore is neither alphanumeric, whitespace,
nor in the claimed punctuation set: `clean_text "_" = "_"`, not `""`. -/
theorem C7_counterexample :
    clean_text ['_'] = ['_'] ∧ specAllowedChar '_' = false ∧
      pyStrip (List.filter specAllowedChar ['_']) = [] := by
  decide

lemma allowedChar_eq_amended (c : Char) :
    allowedChar c = amendedAllowedChar c := by
  simp [allowedChar, amendedAllowedChar, isWordChar, Bool.or_assoc]

/-- C7 (amended): `clean_text` removes exactly those characters that are not
alphanumeric, not the underscore, not whitespace, and not in the punctuation
set `- . , : ; ! ? ( ) ' "`, then trims leading and trailing whitespace;
every character of the output is in that extended class. -/
theorem C7_amended_clean_text (l : List Char) :
    clean_text l = pyStrip (l.filter amendedAllowedChar) ∧
      (clean_text l).all amendedAllowedChar = true := by
  have hf : l.filter allowedChar = l.filter amendedAllowedChar :=
    List.filter_congr fun c _ => allowedChar_eq_amended c
  refine ⟨by rw [clean_text, hf], ?_⟩
  rw [List.all_eq_true]
  intro c hc
  have := (List.mem_filter.mp (mem_pyStrip hc)).2
  rwa [allowedChar_eq_amended] at this

/-- C9: the core pipeline is total by construction (every function of the
embedding is a total Lean function); the empty input yields the empty
output, and an entry with empty/null title and outlet is processed without
error, its outlet defaulting to "Unknown". -/
theorem C9_total_empty_defaults (ks : List (List Char)) (link : List Char) :
    process_entries_with_duplicates [] ks = []
    ∧ process_entries_with_duplicates [⟨[], link, []⟩] ks =
      [⟨[], (if is_kansas_outlet "Unknown".toList ks
             then '*' :: "Unknown".toList else "Unknown".toList),
        link, is_kansas_outlet "Unknown".toList ks⟩] :=
  ⟨rfl, rfl⟩

lemma trimTrailing_append_of_not_space (pre l : List Char)
    (hpre : ∀ a ∈ pre, isPySpace a = false) :
    trimTrailing (pre ++ l) = pre ++ trimTrailing l := by
  induction pre with
  | nil => rfl
  | cons a pre' ih =>
    rw [List.cons_append,
      trimTrailing_cons_not_space _ (hpre a (List.mem_cons_self a pre')),
      ih fun b hb => hpre b (List.mem_cons_of_mem a hb), List.cons_append]

lemma pyStrip_marker_append (m : List Char) (c : Char) (rest : List Char)
    (hm : ∀ a ∈ m, isPySpace a = false) (hc : isPySpace c = false)
    (hne : m ≠ []) :
    pyStrip (m ++ c :: rest) = m ++ c :: trimTrailing rest := by
  obtain ⟨a, m', rfl⟩ : ∃ a m', m = a :: m' := by
    cases m with
    | nil => exact absurd rfl hne
    | cons a m' => exact ⟨a, m', rfl⟩
  unfold pyStrip
  rw [List.cons_append,
    List.dropWhile_cons_of_neg (by simp [hm a (List.mem_cons_self _ _)]),
    ← List.cons_append,
    trimTrailing_append_of_not_space _ _ hm,
    trimTrailing_cons_not_space _ hc]

lemma stripMarker_breaking (l : List Char) :
    stripMarker ("breaking".toList ++ l) = stripMarkerAfter l := by
  unfold stripMarker
  rw [if_pos (by simp), List.drop_left' (by rfl)]

lemma stripMarker_update (l : List Char) :
    stripMarker ("update".toList ++ l) = stripMarkerAfter l := by
  unfold stripMarker
  rw [if_neg, if_pos (by simp), List.drop_left' (by rfl)]
  rw [show "update".toList = 'u' :: "pdate".toList from rfl, List.cons_append,
    show "breaking".toList = 'b' :: "reaking".toList from rfl]
  simp [List.isPrefixOf_cons₂]

lemma stripMarker_exclusive (l : List Char) :
    stripMarker ("exclusive".toList ++ l) = stripMarkerAfter l := by
  unfold stripMarker
  rw [if_neg, if_neg, if_pos (by simp), List.drop_left' (by rfl)]
  · rw [show "exclusive".toList = 'e' :: "xclusive".toList from rfl,
      List.cons_append,
      show "update".toList = 'u' :: "pdate".toList from rfl]
    simp [List.isPrefixOf_cons₂]
  · rw [show "exclusive".toList = 'e' :: "xclusive".toList from rfl,
      List.cons_append,
      show "breaking".toList = 'b' :: "reaking".toList from rfl]
    simp [List.isPrefixOf_cons₂]

/-- C10: the leading marker is matched as a string prefix, not as a whole
word — whenever the lower-cased title is a marker word followed directly by
a non-whitespace character, the marker letters are removed and the key is
computed from the remainder; in particular "Updated tally" normalizes to
"d tally" and "Breakingly bad" to "ly bad". -/
theorem C10_marker_prefix_match :
    (∀ (title m : List Char) (c : Char) (rest : List Char),
        m ∈ ["breaking".toList, "update".toList, "exclusive".toList] →
        pyLower title = m ++ c :: rest → isPySpace c = false →
        normalize_title_for_duplicate_detection title =
          collapseWs (stripMarkerAfter (c :: trimTrailing rest)))
    ∧ normalize_title_for_duplicate_detection "Updated tally".toList =
        "d tally".toList
    ∧ normalize_title_for_duplicate_detection "Breakingly bad".toList =
        "ly bad".toList := by
  refine ⟨?_, by decide, by decide⟩
  intro title m c rest hm hlow hc
  unfold normalize_title_for_duplicate_detection
  rw [hlow]
  simp only [List.mem_cons, List.not_mem_nil, or_false] at hm
  rcases hm with rfl | rfl | rfl
  · rw [pyStrip_marker_append _ _ _ (by decide) hc (by decide),
      stripMarker_breaking]
  · rw [pyStrip_marker_append _ _ _ (by decide) hc (by decide),
      stripMarker_update]
  · rw [pyStrip_marker_append _ _ _ (by decide) hc (by decide),
      stripMarker_exclusive]

/-- Witness for C10: instantiating the prefix-match property at
"Updated tally" (lower-cased "update" ++ "d tally"-remainder). -/
theorem C10_marker_prefix_match_witness :
    normalize_title_for_duplicate_detection "Updated tally".toList =
      collapseWs (stripMarkerAfter ('d' :: trimTrailing " tally".toList)) :=
  C10_marker_prefix_match.1 "Updated tally".toList "update".toList 'd'
    " tally".toList (by decide) (by decide) (by decide)

/-! ## Grouping characterization (for the partition and ordering claims) -/

/-- The input articles that survive exclusion, in input order. -/
def nonExcluded (entries : List RawEntry) : List RawEntry :=
  entries.filter fun e => !excludedB e

/-- First-occurrence deduplication of a key sequence, preserving order. -/
def dedupFirst : List (List Char) → List (List Char)
  | [] => []
  | k :: rest => k :: (dedupFirst rest).filter fun x => x != k

/-- Modelled from the spec (§4.3, §8 order preservation): the Nth distinct
key of the non-excluded input, in input order, yields the Nth group, whose
members are the non-excluded articles with that key in input order. -/
def groupsSpec (entries : List RawEntry) : List (List Char × List Item) :=
  (dedupFirst ((nonExcluded entries).map keyOf)).map fun k =>
    (k, ((nonExcluded entries).filter fun e => keyOf e == k).map mkItem)

lemma dedupFirst_nodup : ∀ l : List (List Char), (dedupFirst l).Nodup
  | [] => List.nodup_nil
  | k :: rest => by
    simp only [dedupFirst]
    refine List.nodup_cons.mpr ⟨?_, (dedupFirst_nodup rest).filter _⟩
    intro hmem
    have h := (List.mem_filter.mp hmem).2
    simp at h

lemma mem_dedupFirst {x : List Char} : ∀ {l : List (List Char)},
    x ∈ dedupFirst l ↔ x ∈ l := by
  intro l
  induction l with
  | nil => simp [dedupFirst]
  | cons k rest ih =>
    simp only [dedupFirst, List.mem_cons, List.mem_filter]
    constructor
    · rintro (rfl | ⟨h, _⟩)
      · exact Or.inl rfl
      · exact Or.inr (ih.mp h)
    · rintro (rfl | h)
      · exact Or.inl rfl
      · by_cases hxk : x = k
        · exact Or.inl hxk
        · exact Or.inr ⟨ih.mpr h, by simp [hxk]⟩

lemma dedupFirst_append_singleton (k : List Char) :
    ∀ l : List (List Char), dedupFirst (l ++ [k]) =
      if k ∈ l then dedupFirst l else dedupFirst l ++ [k] := by
  intro l
  induction l with
  | nil => simp [dedupFirst]
  | cons a l' ih =>
    rw [List.cons_append]
    simp only [dedupFirst, ih]
    by_cases hk : k ∈ l'
    · rw [if_pos hk, if_pos (List.mem_cons_of_mem a hk)]
    · rw [if_neg hk]
      by_cases hka : k = a
      · subst hka
        rw [if_pos (List.mem_cons_self k l'), List.filter_append]
        simp
      · rw [if_neg (by simp [hka, hk]), List.filter_append]
        simp [hka]

lemma insertItem_map_not_mem (f : List Char → List Item) (key : List Char)
    (it : Item) : ∀ ks : List (List Char), key ∉ ks →
      insertItem (ks.map fun k => (k, f k)) key it =
        (ks.map fun k => (k, f k)) ++ [(key, [it])] := by
  intro ks
  induction ks with
  | nil => intro _; rfl
  | cons a ks' ih =>
    intro h
    simp only [List.map_cons, insertItem]
    have hne : ¬ a = key := fun hak => h (by rw [← hak]; exact List.mem_cons_self a ks')
    rw [if_neg hne, ih fun hm => h (List.mem_cons_of_mem a hm),
      List.cons_append]

lemma insertItem_map_mem (f : List Char → List Item) (key : List Char)
    (it : Item) : ∀ ks : List (List Char), ks.Nodup → key ∈ ks →
      insertItem (ks.map fun k => (k, f k)) key it =
        ks.map fun k => (k, if k = key then f k ++ [it] else f k) := by
  intro ks
  induction ks with
  | nil => intro _ h; exact absurd h (List.not_mem_nil key)
  | cons a ks' ih =>
    intro hnd hm
    simp only [List.map_cons, insertItem]
    by_cases hak : a = key
    · rw [if_pos hak, if_pos hak]
      subst hak
      congr 1
      refine (List.map_congr_left fun k hk => ?_).symm
      have hne : k ≠ a := fun he => (List.nodup_cons.mp hnd).1 (he ▸ hk)
      rw [if_neg hne]
    · rw [if_neg hak, if_neg hak,
        ih (List.nodup_cons.mp hnd).2
          ((List.mem_cons.mp hm).resolve_left fun he => hak he.symm)]

lemma nonExcluded_append_excluded (entries : List RawEntry) (e : RawEntry)
    (hex : excludedB e = true) :
    nonExcluded (entries ++ [e]) = nonExcluded entries := by
  unfold nonExcluded
  rw [List.filter_append]
  simp [hex]

lemma nonExcluded_append_kept (entries : List RawEntry) (e : RawEntry)
    (hex : excludedB e = false) :
    nonExcluded (entries ++ [e]) = nonExcluded entries ++ [e] := by
  unfold nonExcluded
  rw [List.filter_append]
  simp [hex]

lemma groupsSpec_concat (entries : List RawEntry) (e : RawEntry) :
    groupsSpec (entries ++ [e]) = stepGroups (groupsSpec entries) e := by
  unfold stepGroups
  by_cases hex : excludedB e = true
  · rw [if_pos hex]
    unfold groupsSpec
    rw [nonExcluded_append_excluded entries e hex]
  · have hex' : excludedB e = false := Bool.eq_false_iff.mpr hex
    rw [if_neg hex]
    unfold groupsSpec
    rw [nonExcluded_append_kept entries e hex', List.map_append]
    simp only [List.map_cons, List.map_nil]
    rw [dedupFirst_append_singleton]
    by_cases hkmem : keyOf e ∈ (nonExcluded entries).map keyOf
    · rw [if_pos hkmem,
        insertItem_map_mem _ _ _ _ (dedupFirst_nodup _)
          (mem_dedupFirst.mpr hkmem)]
      refine List.map_congr_left fun k hk => ?_
      rw [List.filter_append]
      by_cases hke : keyOf e = k
      · rw [if_pos hke.symm]
        simp [hke]
      · rw [if_neg fun he => hke he.symm]
        simp [hke]
    · rw [if_neg hkmem,
        insertItem_map_not_mem _ _ _ _ (fun hm => hkmem (mem_dedupFirst.mp hm)),
        List.map_append]
      congr 1
      · refine List.map_congr_left fun k hk => ?_
        rw [List.filter_append]
        have hke : ¬ keyOf e = k := fun he =>
          hkmem (he ▸ mem_dedupFirst.mp hk)
        simp [hke]
      · have hfe : (nonExcluded entries).filter (fun x => keyOf x == keyOf e)
            = [] := by
          rw [List.filter_eq_nil_iff]
          intro a ha
          simp only [beq_iff_eq]
          exact fun he => hkmem (he ▸ List.mem_map_of_mem keyOf ha)
        simp [hfe]

/-- The grouping loop `buildGroups` equals its order-preserving specification. -/
lemma buildGroups_eq_groupsSpec (entries : List RawEntry) :
    buildGroups entries = groupsSpec entries := by
  induction entries using List.reverseRecOn with
  | nil => rfl
  | append_singleton l e ih =>
    rw [groupsSpec_concat]
    unfold buildGroups at ih ⊢
    rw [List.foldl_append, List.foldl_cons, List.foldl_nil, ih]

lemma sum_insertItem (key : List Char) (it : Item) :
    ∀ gs : List (List Char × List Item),
      ((insertItem gs key it).map fun kg => kg.2.length).sum =
        (gs.map fun kg => kg.2.length).sum + 1 := by
  intro gs
  induction gs with
  | nil => rfl
  | cons kg rest ih =>
    obtain ⟨k, g⟩ := kg
    simp only [insertItem]
    by_cases hk : k = key
    · rw [if_pos hk]
      simp [Nat.add_assoc, Nat.add_comm, Nat.add_left_comm]
    · rw [if_neg hk]
      simp only [List.map_cons, List.sum_cons, ih]
      omega

lemma sum_foldl_stepGroups (entries : List RawEntry) :
    ∀ acc : List (List Char × List Item),
      ((entries.foldl stepGroups acc).map fun kg => kg.2.length).sum =
        (acc.map fun kg => kg.2.length).sum +
          entries.countP fun e => !excludedB e := by
  induction entries with
  | nil => intro acc; simp
  | cons e rest ih =>
    intro acc
    rw [List.foldl_cons, ih, List.countP_cons]
    unfold stepGroups
    by_cases hex : excludedB e = true
    · simp [hex]
    · have hex' : excludedB e = false := Bool.eq_false_iff.mpr hex
      rw [if_neg hex, sum_insertItem]
      simp [hex']
      omega

lemma countP_not_excluded_add (l : List RawEntry) :
    (l.countP fun e => !excludedB e) + l.countP excludedB = l.length := by
  induction l with
  | nil => rfl
  | cons e rest ih =>
    rw [List.countP_cons, List.countP_cons, List.length_cons, ← ih]
    cases hex : excludedB e <;> simp [hex] <;> omega

lemma countP_congr_bool {α : Type} {p q : α → Bool} :
    ∀ {l : List α}, (∀ x ∈ l, p x = q x) → l.countP p = l.countP q := by
  intro l
  induction l with
  | nil => intro _; rfl
  | cons a as ih =>
    intro h
    rw [List.countP_cons, List.countP_cons, h a (List.mem_cons_self a as),
      ih fun x hx => h x (List.mem_cons_of_mem a hx)]

lemma countP_groups (D : List (List Char)) (f : List Char → List Item)
    (e : RawEntry) :
    (D.map fun k => (k, f k)).countP
        (fun kg => kg.2.any fun it => it.entry == e) =
      D.countP fun k => (f k).any fun it => it.entry == e := by
  induction D with
  | nil => rfl
  | cons k D' ih => simp [List.countP_cons, ih]

lemma countP_beq_of_nodup {a : List Char} :
    ∀ {l : List (List Char)}, l.Nodup → a ∈ l →
      l.countP (fun x => x == a) = 1 := by
  intro l
  induction l with
  | nil => intro _ h; exact absurd h (List.not_mem_nil a)
  | cons b rest ih =>
    intro hnd hm
    rw [List.countP_cons]
    by_cases hba : b = a
    · subst hba
      have hz : rest.countP (fun x => x == b) = 0 := by
        rw [List.countP_eq_zero]
        intro x hx
        simp only [beq_iff_eq]
        intro hxb
        exact (List.nodup_cons.mp hnd).1 (hxb ▸ hx)
      simp [hz]
    · have hmem : a ∈ rest :=
        (List.mem_cons.mp hm).resolve_left fun h => hba h.symm
      rw [ih (List.nodup_cons.mp hnd).2 hmem]
      simp [hba]

/-- C5: grouping preserves order — the Nth distinct normalized key of the
non-excluded input (in input order) yields the Nth group, whose members are
in input (first-seen) order; assembly takes the first member as primary (its
title and link become the merged entry's). -/
theorem C5_order_preservation (entries : List RawEntry) :
    buildGroups entries = groupsSpec entries
    ∧ ∀ (p : Item) (ds : List Item) (ks : List (List Char)),
        (mergeGroup (p :: ds) ks).map (fun m => (m.title, m.link)) =
          some (p.title, p.link) :=
  ⟨buildGroups_eq_groupsSpec entries, fun _ _ _ => rfl⟩

/-- C4: grouping is a partition of the non-excluded input — every
non-excluded article is a member of exactly one group, an excluded article
is in no group and removing it from the input leaves the groups unchanged,
and the group sizes together with the excluded count add up to the input
length. -/
theorem C4_partition (entries : List RawEntry) (x : RawEntry) :
    (∀ e ∈ entries, excludedB e = false →
      (buildGroups entries).countP
        (fun kg => kg.2.any fun it => it.entry == e) = 1)
    ∧ (excludedB x = true →
        ((buildGroups entries).all fun kg =>
          kg.2.all fun it => !(it.entry == x)) = true)
    ∧ (excludedB x = true → ∀ pre post : List RawEntry,
        buildGroups (pre ++ x :: post) = buildGroups (pre ++ post))
    ∧ ((buildGroups entries).map fun kg => kg.2.length).sum
        + entries.countP excludedB = entries.length := by
  refine ⟨?_, ?_, ?_, ?_⟩
  · intro e hmem hex
    have he : e ∈ nonExcluded entries :=
      List.mem_filter.mpr ⟨hmem, by simp [hex]⟩
    rw [buildGroups_eq_groupsSpec]
    unfold groupsSpec
    have hcong : ∀ k ∈ dedupFirst ((nonExcluded entries).map keyOf),
        ((((nonExcluded entries).filter fun a => keyOf a == k).map
            mkItem).any fun it => it.entry == e) = (k == keyOf e) := by
      intro k _
      cases hkk : (k == keyOf e) with
      | true =>
        rw [beq_iff_eq] at hkk
        subst hkk
        rw [List.any_eq_true]
        exact ⟨mkItem e,
          List.mem_map_of_mem mkItem (List.mem_filter.mpr ⟨he, by simp⟩),
          by simp [mkItem]⟩
      | false =>
        rw [List.any_eq_false]
        intro it hit
        obtain ⟨a, ha, rfl⟩ := List.mem_map.mp hit
        have hk : keyOf a = k := by simpa using (List.mem_filter.mp ha).2
        have hkne : k ≠ keyOf e := by simpa using hkk
        simp only [mkItem, beq_iff_eq]
        intro hae
        exact hkne (by rw [← hk, hae])
    have hkey : keyOf e ∈ dedupFirst ((nonExcluded entries).map keyOf) :=
      mem_dedupFirst.mpr (List.mem_map_of_mem keyOf he)
    exact (countP_groups _ _ _).trans
      ((countP_congr_bool hcong).trans
        (countP_beq_of_nodup (dedupFirst_nodup _) hkey))
  · intro hx
    rw [buildGroups_eq_groupsSpec, List.all_eq_true]
    unfold groupsSpec
    intro kg hkg
    rw [List.all_eq_true]
    intro it hit
    obtain ⟨k, _, rfl⟩ := List.mem_map.mp hkg
    obtain ⟨a, ha, rfl⟩ := List.mem_map.mp hit
    have hane : excludedB a = false := by
      have := (List.mem_filter.mp (List.mem_filter.mp ha).1).2
      simpa using this
    simp only [mkItem, bne_iff_ne, Bool.not_eq_true', beq_eq_false_iff_ne,
      ne_eq]
    intro hax
    rw [hax, hx] at hane
    exact absurd hane (by decide)
  · intro hx pre post
    unfold buildGroups
    rw [List.foldl_append, List.foldl_append, List.foldl_cons]
    unfold stepGroups
    rw [if_pos hx]
  · rw [show (buildGroups entries) = entries.foldl stepGroups [] from rfl,
      sum_foldl_stepGroups]
    simp only [List.map_nil, List.sum_nil, Nat.zero_add]
    exact countP_not_excluded_add entries

/-- Witness for C4 at a concrete input: one kept article (outlet "X"), one
excluded article (outlet "MSN"). -/
theorem C4_partition_witness :
    (buildGroups [⟨"A".toList, "l1".toList, "X".toList⟩,
        ⟨"B".toList, "l2".toList, "MSN".toList⟩]).countP
        (fun kg => kg.2.any fun it =>
          it.entry == ⟨"A".toList, "l1".toList, "X".toList⟩) = 1
    ∧ ((buildGroups [⟨"A".toList, "l1".toList, "X".toList⟩,
          ⟨"B".toList, "l2".toList, "MSN".toList⟩]).all fun kg =>
        kg.2.all fun it =>
          !(it.entry == ⟨"B".toList, "l2".toList, "MSN".toList⟩)) = true
    ∧ buildGroups ([⟨"A".toList, "l1".toList, "X".toList⟩] ++
          ⟨"B".toList, "l2".toList, "MSN".toList⟩ :: []) =
        buildGroups ([⟨"A".toList, "l1".toList, "X".toList⟩] ++ []) :=
  ⟨(C4_partition [⟨"A".toList, "l1".toList, "X".toList⟩,
        ⟨"B".toList, "l2".toList, "MSN".toList⟩]
      ⟨"B".toList, "l2".toList, "MSN".toList⟩).1
      ⟨"A".toList, "l1".toList, "X".toList⟩ (by decide) (by decide),
   (C4_partition [⟨"A".toList, "l1".toList, "X".toList⟩,
        ⟨"B".toList, "l2".toList, "MSN".toList⟩]
      ⟨"B".toList, "l2".toList, "MSN".toList⟩).2.1 (by decide),
   (C4_partition [] ⟨"B".toList, "l2".toList, "MSN".toList⟩).2.2.1
      (by decide) [⟨"A".toList, "l1".toList, "X".toList⟩] []⟩

/-! ## Normalization pipeline (for the C8 claim) -/

/-- Modelled from the spec (§4.1): strip one marker from the set
`{breaking:, breaking, update:, update, exclusive:, exclusive}` from the
very start — longest variant (with the trailing colon) first — then the
optional trailing whitespace; `none` when this marker does not start the
string. -/
def specStripHead (m : List Char) (l : List Char) : Option (List Char) :=
  if (m ++ [':']).isPrefixOf l then
    some ((l.drop (m.length + 1)).dropWhile isPySpace)
  else if m.isPrefixOf l then some ((l.drop m.length).dropWhile isPySpace)
  else none

/-- Modelled from the spec (§4.1): strip a single leading marker, at most
once, from the very start of the string. -/
def specStripOneMarker (l : List Char) : List Char :=
  (((specStripHead "breaking".toList l).orElse fun _ =>
      (specStripHead "update".toList l).orElse fun _ =>
        specStripHead "exclusive".toList l)).getD l

/-- Modelled from the spec: C8's pipeline read literally — lower-case,
strip a single leading marker from the very start, collapse whitespace
runs, return with no leading or trailing whitespace (final trim); there is
NO initial trim before the marker strip. -/
def specNormalizeForDedup (title : List Char) : List Char :=
  pyStrip (collapseWs (specStripOneMarker (pyLower title)))

lemma isPrefixOf_append_same (m : List Char) :
    ∀ s t : List Char, (m ++ s).isPrefixOf (m ++ t) = s.isPrefixOf t := by
  induction m with
  | nil => intro s t; rfl
  | cons a m' ih => intro s t; simp [List.isPrefixOf_cons₂, ih]

lemma stripMarkerAfter_not_colon (rest : List Char)
    (h : ∀ r, rest ≠ ':' :: r) :
    stripMarkerAfter rest = rest.dropWhile isPySpace := by
  unfold stripMarkerAfter
  split
  · rename_i r heq
    exact absurd rfl (h heq)
  · rfl

lemma specStripHead_append (m rest : List Char) :
    specStripHead m (m ++ rest) = some (stripMarkerAfter rest) := by
  unfold specStripHead
  by_cases hc : ∃ r, rest = ':' :: r
  · obtain ⟨r, rfl⟩ := hc
    rw [if_pos]
    · rw [show m ++ ':' :: r = (m ++ [':']) ++ r from List.append_cons m ':' r,
        List.drop_left' (by simp)]
      rfl
    · rw [show m ++ ':' :: r = (m ++ [':']) ++ r from List.append_cons m ':' r]
      simp
  · rw [if_neg, if_pos (by simp), List.drop_left' rfl,
      stripMarkerAfter_not_colon rest fun r he => hc ⟨r, he⟩]
    refine fun h => hc ?_
    rw [isPrefixOf_append_same] at h
    cases rest with
    | nil => exact absurd h (by decide)
    | cons c r =>
      simp only [List.isPrefixOf_cons₂, List.isPrefixOf_nil_left,
        Bool.and_true, beq_iff_eq] at h
      exact ⟨r, by rw [← h]⟩

lemma specStripHead_none (m l : List Char) (h : m.isPrefixOf l = false) :
    specStripHead m l = none := by
  unfold specStripHead
  rw [if_neg, if_neg (by simp [h])]
  intro hx
  have h1 := List.isPrefixOf_iff_prefix.mp hx
  have h2 : m <+: m ++ [':'] := List.prefix_append m [':']
  have := List.isPrefixOf_iff_prefix.mpr (h2.trans h1)
  rw [h] at this
  exact Bool.false_ne_true this

lemma stripMarker_eq_spec (l : List Char) :
    stripMarker l = specStripOneMarker l := by
  by_cases hb : "breaking".toList.isPrefixOf l
  · obtain ⟨rest, rfl⟩ := List.isPrefixOf_iff_prefix.mp hb
    rw [stripMarker_breaking]
    unfold specStripOneMarker
    rw [specStripHead_append]
    rfl
  · have hb' : "breaking".toList.isPrefixOf l = false := Bool.eq_false_iff.mpr hb
    by_cases hu : "update".toList.isPrefixOf l
    · obtain ⟨rest, rfl⟩ := List.isPrefixOf_iff_prefix.mp hu
      rw [stripMarker_update]
      unfold specStripOneMarker
      rw [specStripHead_none _ _ hb', specStripHead_append]
      rfl
    · have hu' : "update".toList.isPrefixOf l = false := Bool.eq_false_iff.mpr hu
      by_cases he : "exclusive".toList.isPrefixOf l
      · obtain ⟨rest, rfl⟩ := List.isPrefixOf_iff_prefix.mp he
        rw [stripMarker_exclusive]
        unfold specStripOneMarker
        rw [specStripHead_none _ _ hb', specStripHead_none _ _ hu',
          specStripHead_append]
        rfl
      · have he' : "exclusive".toList.isPrefixOf l = false := Bool.eq_false_iff.mpr he
        unfold stripMarker specStripOneMarker
        rw [if_neg hb, if_neg hu, if_neg he,
          specStripHead_none _ _ hb', specStripHead_none _ _ hu',
          specStripHead_none _ _ he']
        rfl

lemma tt_eq_self_of_cons {c : Char} {rest : List Char}
    (h : trimTrailing (c :: rest) = c :: rest) :
    trimTrailing rest = rest := by
  by_cases hcond : ((trimTrailing rest).isEmpty && isPySpace c) = true
  · simp only [trimTrailing, if_pos hcond] at h
    exact List.noConfusion h
  · simp only [trimTrailing, if_neg hcond] at h
    injection h

lemma noTrail_append : ∀ (t s : List Char),
    trimTrailing (t ++ s) = t ++ s → trimTrailing s = s := by
  intro t
  induction t with
  | nil => intro s h; exact h
  | cons a t' ih =>
    intro s h
    rw [List.cons_append] at h
    exact ih s (tt_eq_self_of_cons h)

lemma noTrail_of_suffix {s l : List Char} (hl : trimTrailing l = l)
    (hs : s <:+ l) : trimTrailing s = s := by
  obtain ⟨t, rfl⟩ := hs
  exact noTrail_append t s hl

lemma noTrail_dropWhile {l : List Char} (hl : trimTrailing l = l) :
    trimTrailing (l.dropWhile isPySpace) = l.dropWhile isPySpace :=
  noTrail_of_suffix hl (List.dropWhile_suffix isPySpace)

lemma stripMarkerAfter_noTrail {x : List Char} (hx : trimTrailing x = x) :
    trimTrailing (stripMarkerAfter x) = stripMarkerAfter x := by
  unfold stripMarkerAfter
  split
  · rename_i r heq
    exact noTrail_dropWhile (tt_eq_self_of_cons hx)
  · exact noTrail_dropWhile hx

lemma stripMarker_noTrail {s : List Char} (hs : trimTrailing s = s) :
    trimTrailing (stripMarker s) = stripMarker s := by
  unfold stripMarker
  split
  · exact stripMarkerAfter_noTrail (noTrail_of_suffix hs (List.drop_suffix _ _))
  · split
    · exact stripMarkerAfter_noTrail
        (noTrail_of_suffix hs (List.drop_suffix _ _))
    · split
      · exact stripMarkerAfter_noTrail
          (noTrail_of_suffix hs (List.drop_suffix _ _))
      · exact hs

lemma dropWhile_isPySpace_idem (l : List Char) :
    (l.dropWhile isPySpace).dropWhile isPySpace = l.dropWhile isPySpace := by
  cases hd : l.dropWhile isPySpace with
  | nil => rfl
  | cons c rest =>
    exact List.dropWhile_cons_of_neg (by simp [dropWhile_cons_false hd])

lemma stripMarkerAfter_noLead (x : List Char) :
    (stripMarkerAfter x).dropWhile isPySpace = stripMarkerAfter x := by
  unfold stripMarkerAfter
  exact dropWhile_isPySpace_idem _

lemma stripMarker_noLead {s : List Char} (hs : s.dropWhile isPySpace = s) :
    (stripMarker s).dropWhile isPySpace = stripMarker s := by
  unfold stripMarker
  split
  · exact stripMarkerAfter_noLead _
  · split
    · exact stripMarkerAfter_noLead _
    · split
      · exact stripMarkerAfter_noLead _
      · exact hs

lemma collapseWsAux_ne_nil (c : Char) (hcf : isPySpace c = false) :
    ∀ (l : List Char) (flag : Bool), c ∈ l → collapseWsAux flag l ≠ [] := by
  intro l
  induction l with
  | nil => intro flag hc; exact absurd hc (List.not_mem_nil c)
  | cons a rest ih =>
    intro flag hc
    unfold collapseWsAux
    by_cases ha : isPySpace a = true
    · have hcr : c ∈ rest := by
        rcases List.mem_cons.mp hc with rfl | h
        · exact absurd ha (by simp [hcf])
        · exact h
      rw [if_pos ha]
      cases flag with
      | true => simpa using ih true hcr
      | false => simp
    · rw [if_neg ha]
      simp

lemma exists_not_space_of_noTrail : ∀ {l : List Char},
    trimTrailing l = l → l ≠ [] → ∃ d ∈ l, isPySpace d = false := by
  intro l
  induction l with
  | nil => intro _ h; exact absurd rfl h
  | cons c rest ih =>
    intro h _
    by_cases hr : rest = []
    · subst hr
      refine ⟨c, List.mem_cons_self c [], ?_⟩
      by_cases hc : isPySpace c = true
      · simp [trimTrailing, hc] at h
      · exact Bool.eq_false_iff.mpr hc
    · obtain ⟨d, hd, hdns⟩ := ih (tt_eq_self_of_cons h) hr
      exact ⟨d, List.mem_cons_of_mem c hd, hdns⟩

lemma collapseWsAux_noTrail : ∀ (l : List Char), trimTrailing l = l →
    ∀ flag, trimTrailing (collapseWsAux flag l) = collapseWsAux flag l := by
  intro l
  induction l with
  | nil => intro _ flag; rfl
  | cons c rest ih =>
    intro h flag
    have hrest : trimTrailing rest = rest := tt_eq_self_of_cons h
    have hcond : (rest.isEmpty && isPySpace c) = false := by
      by_cases hcnd : ((trimTrailing rest).isEmpty && isPySpace c) = true
      · simp only [trimTrailing, if_pos hcnd] at h
        exact List.noConfusion h
      · rw [hrest] at hcnd
        exact Bool.eq_false_iff.mpr hcnd
    unfold collapseWsAux
    by_cases hc : isPySpace c = true
    · have hre : rest.isEmpty = false := by
        cases hrr : rest.isEmpty
        · rfl
        · rw [hrr, hc] at hcond
          exact absurd hcond (by simp)
      have hrne : rest ≠ [] := fun hnil => by simp [hnil] at hre
      obtain ⟨d, hd, hdns⟩ := exists_not_space_of_noTrail hrest hrne
      rw [if_pos hc]
      have hX := ih hrest true
      have hXne : collapseWsAux true rest ≠ [] :=
        collapseWsAux_ne_nil d hdns rest true hd
      cases flag with
      | true => simpa using hX
      | false =>
        show trimTrailing (' ' :: collapseWsAux true rest) =
          ' ' :: collapseWsAux true rest
        have hXe : (trimTrailing (collapseWsAux true rest)).isEmpty = false := by
          rw [hX]
          simpa [List.isEmpty_iff] using hXne
        simp only [trimTrailing, hXe, Bool.false_and, if_neg]
        rw [hX]
        simp
    · have hc' : isPySpace c = false := Bool.eq_false_iff.mpr hc
      rw [if_neg hc]
      have hX := ih hrest false
      rw [trimTrailing_cons_not_space _ hc', hX]

lemma collapseWs_noLead {l : List Char} (hl : l.dropWhile isPySpace = l) :
    (collapseWs l).dropWhile isPySpace = collapseWs l := by
  cases l with
  | nil => rfl
  | cons c rest =>
    have hc : isPySpace c = false := by
      by_cases h : isPySpace c = true
      · rw [List.dropWhile_cons_of_pos h] at hl
        have hle : (rest.dropWhile isPySpace).length ≤ rest.length :=
          (List.dropWhile_sublist isPySpace).length_le
        rw [hl] at hle
        simp [List.length_cons] at hle
      · exact Bool.eq_false_iff.mpr h
    show (collapseWsAux false (c :: rest)).dropWhile isPySpace =
      collapseWsAux false (c :: rest)
    unfold collapseWsAux
    have hcn : ¬ isPySpace c = true := by simp [hc]
    rw [if_neg hcn]
    exact List.dropWhile_cons_of_neg hcn

lemma pyStrip_noLead (l : List Char) :
    (pyStrip l).dropWhile isPySpace = pyStrip l := by
  unfold pyStrip
  cases hd : l.dropWhile isPySpace with
  | nil => rfl
  | cons c rest =>
    have hc := dropWhile_cons_false hd
    rw [trimTrailing_cons_not_space rest hc]
    exact List.dropWhile_cons_of_neg (by simp [hc])

lemma pyStrip_noTrail (l : List Char) :
    trimTrailing (pyStrip l) = pyStrip l :=
  trimTrailing_idem _

/-- C8 counterexample: for the title " update x" (leading whitespace), the
code trims before marker-stripping and produces "x", while the claim's
pipeline — lower-case, strip a marker only from the very start, collapse
whitespace, return trimmed — leaves the marker in place and produces
"update x". -/
theorem C8_counterexample :
    normalize_title_for_duplicate_detection " update x".toList = "x".toList
    ∧ specNormalizeForDedup " update x".toList = "update x".toList
    ∧ normalize_title_for_duplicate_detection " update x".toList ≠
        specNormalizeForDedup " update x".toList := by
  decide

/-- C8 (amended): `normalize_title_for_duplicate_detection` lower-cases and
TRIMS the title, then strips a single leading marker from
`{breaking:, breaking, update:, update, exclusive:, exclusive}`
(optional trailing colon, optional trailing whitespace) at most once from
the very start of the trimmed string, then collapses every whitespace run
to one space; the result has no leading or trailing whitespace, and no
second marker is ever stripped ("Breaking: Update: X" keeps "update: " in
its key). -/
theorem C8_amended_normalize (title : List Char) :
    normalize_title_for_duplicate_detection title =
      collapseWs (specStripOneMarker (pyStrip (pyLower title)))
    ∧ pyStrip (normalize_title_for_duplicate_detection title) =
        normalize_title_for_duplicate_detection title
    ∧ normalize_title_for_duplicate_detection "Breaking: Update: X".toList =
        "update: x".toList := by
  refine ⟨?_, ?_, by decide⟩
  · unfold normalize_title_for_duplicate_detection
    rw [stripMarker_eq_spec]
  · have key : ∀ Z : List Char, Z.dropWhile isPySpace = Z →
        trimTrailing Z = Z → pyStrip Z = Z := by
      intro Z h1 h2
      unfold pyStrip
      rw [h1, h2]
    exact key _
      (collapseWs_noLead (stripMarker_noLead (pyStrip_noLead (pyLower title))))
      (collapseWsAux_noTrail _
        (stripMarker_noTrail (pyStrip_noTrail (pyLower title))) false)

end MoranNews
